import Mathlib

/-!
# Verification of the ChillerReporting datasheet field-extraction engine

Shallow embedding of `src/extract.py`.  Strings are modelled as `List Char`
(Python `str`), Python `float` values of the exact decimal shapes produced by
`_to_float` are modelled as `ℚ`, Python `dict` as an association list in
insertion order, and nullable values by the `PyVal.vnone` constructor.

The module's pattern matching uses Python's `re` with `re.IGNORECASE`.  The
patterns in `LABEL_PATTERNS` use only: case-insensitive literals, the classes
`\d`, `\s`, `.`, `[Rr]`, `[A-Za-z0-9]`, `[A-Za-z ]`, `[A-Z0-9\-\s]`, greedy
and lazy `+`/`*`/`?`, `{3,4}`, alternation, capturing and non-capturing
groups, and `$`.  The engine below implements exactly these constructs with
Python's backtracking priority semantics (leftmost start position, left
alternative first, greedy longest-first, lazy shortest-first), capture-group
recording in completion order (most recent first, which yields both
`m.group(i)` = last capture and `m.lastindex` = index of the group that
completed last), and Python's `$` (end of string, or just before a trailing
final newline).  Character classes are the ASCII sets Python uses on these
inputs; `re.IGNORECASE` is modelled by lower-casing both sides.
-/

namespace ChillerReporting

/-! ## Character classes and Python `str.strip` -/

/-- Python's `\s` / `str.strip()` whitespace set (ASCII): space, `\t`, `\n`,
`\r`, `\x0b`, `\x0c`. -/
def isPySpace (c : Char) : Bool :=
  c == ' ' || c == '\t' || c == '\n' || c == '\r' ||
  c == Char.ofNat 11 || c == Char.ofNat 12

/-- Python's `\d` on ASCII input. -/
def isPyDigit (c : Char) : Bool := '0' ≤ c && c ≤ '9'

/-- The class `[A-Za-z]`. -/
def isAsciiAlpha (c : Char) : Bool :=
  ('A' ≤ c && c ≤ 'Z') || ('a' ≤ c && c ≤ 'z')

/-- The class `[A-Za-z0-9]`. -/
def isAsciiAlnum (c : Char) : Bool := isAsciiAlpha c || isPyDigit c

/-- The class `[A-Z0-9\-\s]` under `re.IGNORECASE` (the letter range also
matches lowercase). -/
def isModelChar (c : Char) : Bool :=
  isAsciiAlpha c || isPyDigit c || c == '-' || isPySpace c

/-- The class `[A-Za-z ]`. -/
def isFluidChar (c : Char) : Bool := isAsciiAlpha c || c == ' '

/-- The class `[Rr]` (also what `[Rr]` matches under IGNORECASE). -/
def isRr (c : Char) : Bool := c == 'R' || c == 'r'

/-- The class `.` without `re.DOTALL`: any character except a newline. -/
def dotAny (c : Char) : Bool := c != '\n'

/-- Case-insensitive single-character literal (`re.IGNORECASE`). -/
def ciIs (a : Char) : Char → Bool := fun c => c.toLower == a.toLower

/-- Python `str.strip()`: drop leading and trailing `isPySpace` characters. -/
def pyStrip (s : List Char) : List Char :=
  ((s.dropWhile isPySpace).reverse.dropWhile isPySpace).reverse

/-! ## The regex fragment used by `extract.py`, with Python semantics -/

/-- Abstract syntax of the regex fragment appearing in `extract.py`.
Quantifiers (`star`) only ever apply to single-character classes there, which
is what `star` expresses; `r+` is `cat (cls p) (star p)`, `r?` is
`alt r eps`, `X{3,4}` is unrolled. -/
inductive Re where
  | eps : Re
  | cls (p : Char → Bool) : Re
  | star (p : Char → Bool) (isLazy : Bool) : Re
  | cat (a b : Re) : Re
  | alt (a b : Re) : Re
  | group (i : Nat) (r : Re) : Re
  | eos : Re

/-- Capture-group record: `(index, captured text)` pairs, most recently
completed group first (so the head gives Python's `m.lastindex`, and the
first entry for an index gives `m.group(index)`). -/
abbrev Caps := List (Nat × List Char)

/-- All ways the regex can match a prefix of `s`, as `(rest, caps)` pairs in
Python's backtracking priority order (first element = the match Python
returns when anchored at this position). -/
def mrun : Re → List Char → List (List Char × Caps)
  | .eps, s => [(s, [])]
  | .cls p, s =>
    match s with
    | [] => []
    | c :: t => if p c then [(t, [])] else []
  | .star p isLazy, s =>
    let k := (s.takeWhile p).length
    let ns := if isLazy then List.range (k + 1) else (List.range (k + 1)).reverse
    ns.map (fun n => (s.drop n, []))
  | .cat a b, s =>
    (mrun a s).flatMap (fun x => (mrun b x.1).map (fun y => (y.1, y.2 ++ x.2)))
  | .alt a b, s => mrun a s ++ mrun b s
  | .group i r, s =>
    (mrun r s).map (fun x => (x.1, (i, s.take (s.length - x.1.length)) :: x.2))
  | .eos, s => if s = [] || s = ['\n'] then [(s, [])] else []

/-- Python `re.search`: try each start position left to right; at the first position
with a match, return Python's highest-priority match as
`(group(0), rest-of-string, caps)`. -/
def searchAux (r : Re) : List Char → Option (List Char × List Char × Caps)
  | [] => ((mrun r []).head?).map (fun x => (([] : List Char), x.1, x.2))
  | c :: t =>
    match (mrun r (c :: t)).head? with
    | some x => some ((c :: t).take ((c :: t).length - x.1.length), x.1, x.2)
    | none => searchAux r t

/-- Python `m.group(i)`: the most recent capture recorded for group `i`. -/
def capGet (caps : Caps) (i : Nat) : Option (List Char) :=
  (caps.find? (fun e => e.1 == i)).map (·.2)

/-- Python `m.lastindex or 0`. -/
def lastIndex (caps : Caps) : Nat :=
  match caps.head? with
  | some e => e.1
  | none => 0

/-- The list `[i, i+1, ..., i+n-1]` — Python's `range(i, i+n)`. -/
def idxFrom : Nat → Nat → List Nat
  | _, 0 => []
  | i, n + 1 => i :: idxFrom (i + 1) n

/-- The group-scanning loop of `_grab`: return the first scanned group that
is assigned and non-blank after stripping, stripped. -/
def grabLoop (caps : Caps) : List Nat → Option (List Char)
  | [] => none
  | i :: is =>
    match capGet caps i with
    | some g => if pyStrip g ≠ [] then some (pyStrip g) else grabLoop caps is
    | none => grabLoop caps is

/-- The function `_grab(text, pattern)` from `extract.py`: first case-insensitive match in
document order, then scan groups `1 .. (m.lastindex or 0)` for the first
assigned, non-blank-after-strip group. -/
def grab (text : List Char) (r : Re) : Option (List Char) :=
  match searchAux r text with
  | none => none
  | some (_, _, caps) => grabLoop caps (idxFrom 1 (lastIndex caps))

/-- Capturing groups of a regex, with their subexpressions, in syntactic
order. -/
def groupsOf : Re → List (Nat × Re)
  | .eps | .cls _ | .star _ _ | .eos => []
  | .cat a b => groupsOf a ++ groupsOf b
  | .alt a b => groupsOf a ++ groupsOf b
  | .group i r => (i, r) :: groupsOf r

/-- The largest group index of a regex (Python's `re.Pattern.groups` for
these patterns, whose indices are `1..n`). -/
def maxGroup (r : Re) : Nat := (groupsOf r).foldr (fun e m => max e.1 m) 0

/-- Modelled from the spec: "scan the match's capture groups in order; return
the first group that is both present (matched) and non-blank after trimming
whitespace" — scanning all of the pattern's groups `1 .. maxGroup`, not the
`1 .. m.lastindex` range the code scans.  Used to compare against `grab`. -/
def grabSpec (text : List Char) (r : Re) : Option (List Char) :=
  match searchAux r text with
  | none => none
  | some (_, _, caps) => grabLoop caps (idxFrom 1 (maxGroup r))

/-! ## `_to_float` -/

/-- Sum of a digit list read in base 10. -/
def digitsToNat (ds : List Char) : Nat :=
  ds.foldl (fun n c => 10 * n + (c.toNat - 48)) 0

/-- Digits after the decimal point, if the remainder starts with `.`. -/
def fracDigits : List Char → List Char
  | '.' :: fs => fs
  | _ => []

/-- The value of an unsigned `\d+(\.\d+)?` string: integer part plus
fractional part, expressed as the single fraction
`(ip * 10^|fp| + fp) / 10^|fp|`. -/
def parseUnsigned (cs : List Char) : ℚ :=
  let ip := cs.takeWhile isPyDigit
  let fp := fracDigits (cs.dropWhile isPyDigit)
  mkRat (digitsToNat ip * 10 ^ fp.length + digitsToNat fp) (10 ^ fp.length)

/-- Python `float()` on strings of the shape `-?\d+(\.\d+)?`, as an exact
rational (the claims only involve decimally-exact values). -/
def parseFloat (cs : List Char) : ℚ :=
  if cs.head? = some '-' then -(parseUnsigned cs.tail) else parseUnsigned cs

/-- The regex `-?\d+(\.\d+)?` used inside `_to_float`. -/
def numRe0 : Re :=
  .cat (.alt (.cls (fun c => c == '-')) .eps)
    (.cat (.cat (.cls isPyDigit) (.star isPyDigit false))
      (.alt (.group 1 (.cat (.cls (fun c => c == '.')) (.cat (.cls isPyDigit) (.star isPyDigit false)))) .eps))

/-- The function `_to_float(x)` from `extract.py`: `None` passes through; strip; empty
gives `None`; remove commas; parse the first `-?\d+(\.\d+)?` substring with
`float`, else `None`. -/
def to_float : Option (List Char) → Option ℚ
  | none => none
  | some x =>
    if pyStrip x = [] then none
    else
      match searchAux numRe0 ((pyStrip x).filter (fun c => c ≠ ',')) with
      | some (g0, _, _) => some (parseFloat g0)
      | none => none

/-! ## The `LABEL_PATTERNS` table -/

/-- Case-insensitive literal string. -/
def lit (s : String) : Re := s.toList.foldr (fun c acc => Re.cat (.cls (ciIs c)) acc) .eps

/-- Greedy `p+`. -/
def plusG (p : Char → Bool) : Re := .cat (.cls p) (.star p false)

/-- Lazy `p+?`. -/
def plusL (p : Char → Bool) : Re := .cat (.cls p) (.star p true)

/-- Greedy `r?`. -/
def optG (r : Re) : Re := .alt r .eps

/-- Sequence a list of regexes. -/
def rcat (l : List Re) : Re := l.foldr Re.cat .eps

/-- The quantified class `\s+`. -/
def wsP : Re := plusG isPySpace

/-- The quantified class `\s*`. -/
def wsS : Re := .star isPySpace false

/-- The group `(\.\d+)`'s body: `\.\d+`. -/
def fracRe : Re := .cat (.cls (fun c => c == '.')) (plusG isPyDigit)

/-- Body of the numeric capture `(\d+(\.\d+)?)`, with `j` the index of the
inner group. -/
def numBody (j : Nat) : Re := .cat (plusG isPyDigit) (optG (.group j fracRe))

/-- The numeric capture `(\d+(\.\d+)?)` as group `i` (inner group `i+1`). -/
def numCap (i : Nat) : Re := .group i (numBody (i + 1))

def patRange : Re := rcat [lit "Range", wsP, .group 1 (plusG dotAny)]
def patChillerModel : Re := rcat [lit "Chiller model", wsP, .group 1 (plusG dotAny)]
def patModel : Re :=
  rcat [lit "Model", wsP, .group 1 (plusL isModelChar), .alt (.cls (fun c => c == '\n')) .eos]
def patUnitApplication : Re := rcat [lit "Unit Application", wsP, .group 1 (plusG dotAny)]
def patCompressorType : Re := rcat [lit "Compressor type", wsP, .group 1 (plusG dotAny)]
def patRefrigerant : Re :=
  rcat [lit "Refrigerant Type", .star dotAny true, .cls isPySpace,
    .group 1 (rcat [.cls isRr, .cls isPyDigit, .cls isPyDigit, .cls isPyDigit,
      optG (.cls isPyDigit), .star isAsciiAlnum false])]
def patRefrigerantGwp : Re := rcat [lit "Refrigerant GWP", wsP, numCap 1]
def patElectricalSupply : Re := rcat [lit "Electrical supply", wsP, .group 1 (plusG dotAny)]
def patDesignAmbientC : Re :=
  rcat [lit "Outdoor air dry bulb temperature", wsP, numCap 1, wsS, lit "C"]
def patEwtC : Re := rcat [lit "Fluid entering temperature", wsP, numCap 1, wsS, lit "C"]
def patLwtC : Re := rcat [lit "Fluid leaving temperature", wsP, numCap 1, wsS, lit "C"]
def patFluid : Re := rcat [lit "Fluid Type and concentration", wsP, .group 1 (plusG isFluidChar)]
def patAntifreezePct : Re :=
  rcat [lit "Fluid Type and concentration", .star dotAny true, lit "/", wsP, numCap 1, wsS, lit "%"]
def patElevationM : Re := rcat [lit "Elevation", wsP, numCap 1, wsS, lit "m"]
def patGrossCapacityKw : Re := rcat [lit "Gross capacity", wsP, numCap 1, wsS, lit "kW"]
def patNetCapacityKw : Re := rcat [lit "Net capacity", wsP, numCap 1, wsS, lit "kW"]
def patPowerKw : Re :=
  rcat [.alt (lit "Gross unit power") (lit "Total absorbed power"), wsP, numCap 1, wsS, lit "kW"]
def patGrossEer : Re := rcat [lit "Gross EER", wsP, numCap 1, wsS, lit "EER"]
def patNetEer : Re := rcat [lit "Net EER", wsP, numCap 1, wsS, lit "EER"]
def patDesignFlowLs : Re := rcat [lit "Design flow rate", wsP, numCap 1, wsS, lit "L/s"]
def patEvapPressureDropKpa : Re :=
  rcat [lit "Evaporator Pressure drop (Design)", wsP, numCap 1, wsS, lit "kPa"]
def patSoundPowerDba : Re :=
  rcat [lit "Outdoor sound power level", .star dotAny true, .cls isPySpace, numCap 1, wsS, lit "dBA"]
def patSoundPressureDba : Re :=
  rcat [lit "Outdoor sound pressure level", .star dotAny true, .cls isPySpace, numCap 1, wsS, lit "dBA"]
def patIplvSi : Re := rcat [lit "IPLV.SI", wsP, numCap 1]
def patNplvSi : Re := rcat [lit "NPLV.SI", wsP, numCap 1]
def patRunningCurrentA : Re := rcat [lit "Current", wsP, numCap 1, wsS, lit "A"]
def patStartupCurrentA : Re := rcat [lit "Start-up current", wsP, numCap 1, wsS, lit "A"]
def patMaxAmpsA1 : Re := rcat [lit "Max amps", wsP, numCap 1, wsS, lit "A"]
def patMaxAmpsA2 : Re := rcat [lit "Maximum running current", wsP, numCap 3, wsS, lit "A"]
def patMaxAmpsA : Re := .alt patMaxAmpsA1 patMaxAmpsA2
def patMaxPowerKw : Re := rcat [lit "Maximum power at maximum current", wsP, numCap 1, wsS, lit "kW"]
def patCosPhi : Re := rcat [lit "Displacement power factor (cos-phi)", wsP, numCap 1]
def patLengthMm : Re := rcat [lit "Length", wsP, numCap 1, wsS, lit "mm"]
def patWidthMm : Re := rcat [lit "Width", wsP, numCap 1, wsS, lit "mm"]
def patHeightMm : Re := rcat [lit "Height", wsP, numCap 1, wsS, lit "mm"]
def patShippingWeightKg : Re :=
  rcat [.alt (lit "Unit shipping weight") (lit "Shipping weight including packaging"),
    wsP, numCap 1, wsS, lit "kg"]
def patOperatingWeightKg : Re := rcat [lit "Operating weight", wsP, numCap 1, wsS, lit "kg"]

/-- The table `LABEL_PATTERNS`, in the source's insertion order. -/
def LABEL_PATTERNS : List (String × Re) :=
  [("range", patRange), ("chiller_model", patChillerModel), ("model", patModel),
   ("unit_application", patUnitApplication), ("compressor_type", patCompressorType),
   ("refrigerant", patRefrigerant), ("refrigerant_gwp", patRefrigerantGwp),
   ("electrical_supply", patElectricalSupply), ("design_ambient_c", patDesignAmbientC),
   ("ewt_c", patEwtC), ("lwt_c", patLwtC), ("fluid", patFluid),
   ("antifreeze_pct", patAntifreezePct), ("elevation_m", patElevationM),
   ("gross_capacity_kw", patGrossCapacityKw), ("net_capacity_kw", patNetCapacityKw),
   ("power_kw", patPowerKw), ("gross_eer_kw_per_kw", patGrossEer),
   ("net_eer_kw_per_kw", patNetEer), ("design_flow_ls", patDesignFlowLs),
   ("evap_pressure_drop_kpa", patEvapPressureDropKpa), ("sound_power_dba", patSoundPowerDba),
   ("sound_pressure_dba", patSoundPressureDba), ("iplv_si", patIplvSi), ("nplv_si", patNplvSi),
   ("running_current_a", patRunningCurrentA), ("startup_current_a", patStartupCurrentA),
   ("max_amps_a", patMaxAmpsA), ("max_power_kw", patMaxPowerKw), ("cos_phi", patCosPhi),
   ("length_mm", patLengthMm), ("width_mm", patWidthMm), ("height_mm", patHeightMm),
   ("shipping_weight_kg", patShippingWeightKg), ("operating_weight_kg", patOperatingWeightKg)]

/-- The set of keys given numeric conversion in `extract_specs_from_pdf`. -/
def NUMERIC_KEYS : List String :=
  ["design_ambient_c", "ewt_c", "lwt_c", "antifreeze_pct", "elevation_m",
   "gross_capacity_kw", "net_capacity_kw", "power_kw", "gross_eer_kw_per_kw",
   "net_eer_kw_per_kw", "design_flow_ls", "evap_pressure_drop_kpa", "sound_power_dba",
   "sound_pressure_dba", "iplv_si", "nplv_si", "running_current_a", "startup_current_a",
   "max_amps_a", "max_power_kw", "cos_phi", "length_mm", "width_mm", "height_mm",
   "shipping_weight_kg", "operating_weight_kg", "refrigerant_gwp"]

/-- The pattern keys (the Field Definition set). -/
def PKeys : List String := LABEL_PATTERNS.map Prod.fst

/-! ## The extraction pipeline -/

/-- A Python value stored in the result dict: a float, a string, or `None`. -/
inductive PyVal where
  | vnum (q : ℚ)
  | vstr (s : List Char)
  | vnone
deriving DecidableEq

/-- Python `d.get(k)` / `d[k]` on an insertion-ordered dict with unique keys. -/
def lookupKey (m : List (String × PyVal)) (k : String) : Option PyVal :=
  (m.find? (fun e => e.1 == k)).map (·.2)

/-- Python `d[k] = v`: overwrite in place if present, else append. -/
def setKey (m : List (String × PyVal)) (k : String) (v : PyVal) : List (String × PyVal) :=
  if m.any (fun e => e.1 == k) then m.map (fun e => if e.1 == k then (k, v) else e)
  else m ++ [(k, v)]

/-- One iteration of the `for key, pat in LABEL_PATTERNS.items()` loop. -/
def stepPat (text : List Char) (out : List (String × PyVal)) (kp : String × Re) :
    List (String × PyVal) :=
  match grab text kp.2 with
  | none => out
  | some val =>
    if kp.1 ∈ NUMERIC_KEYS then
      setKey out kp.1 (match to_float (some val) with
        | some q => .vnum q
        | none => .vnone)
    else
      setKey out kp.1 (.vstr val)

/-- The label-pattern pass: start from `{"_raw_text": text}` and apply every
pattern. -/
def applyPatterns (text : List Char) : List (String × PyVal) :=
  LABEL_PATTERNS.foldl (stepPat text) [("_raw_text", .vstr text)]

/-- The `model` post-processing step: if `out.get("model")` is truthy and
longer than 60 characters, replace it by its first 60 characters, stripped.
(A non-string `model` value never occurs: `"model"` is not a numeric key, so
the stored value is always a string; Python's `len` would fail otherwise.) -/
def fixModel (out : List (String × PyVal)) : List (String × PyVal) :=
  match lookupKey out "model" with
  | some (.vstr s) =>
    if s ≠ [] ∧ 60 < s.length then setKey out "model" (.vstr (pyStrip (s.take 60))) else out
  | _ => out

/-- The whole per-text extraction: pattern pass then `model` fix. -/
def extractFromText (text : List Char) : List (String × PyVal) :=
  fixModel (applyPatterns text)

/-- The page-collection loop: keep each page's text (original, unstripped)
when it is non-blank after stripping; a page with no text layer contributes
nothing (`page.extract_text() or ""`). -/
def collectParts : List (Option (List Char)) → List (List Char)
  | [] => []
  | p :: ps =>
    let t := p.getD []
    if pyStrip t ≠ [] then t :: collectParts ps else collectParts ps

/-- Python `"\n".join(text_parts)`. -/
def joinPages (pages : List (Option (List Char))) : List Char :=
  List.intercalate ['\n'] (collectParts pages)

/-- The document-open failure (`pdfplumber` raising on corrupt/non-PDF
bytes). -/
inductive DocError where
  | documentUnreadable (msg : List Char)
deriving DecidableEq

/-- The function `extract_specs_from_pdf`, with the PDF text-layer collaborator
(`pdfplumber.open` + per-page `extract_text`) abstracted as a function from
the input bytes to either a `DocError` or the ordered list of per-page
optional texts.  An open failure propagates; otherwise pages are joined and
the pattern pass plus `model` fix are applied. -/
def extract_specs_from_pdf
    (openPdf : List UInt8 → Except DocError (List (Option (List Char))))
    (file : List UInt8) : Except DocError (List (String × PyVal)) :=
  match openPdf file with
  | .error e => .error e
  | .ok pages => .ok (extractFromText (joinPages pages))

/-! ## Engine lemmas -/

theorem mrun_eps_mem {s : List Char} {x : List Char × Caps} (h : x ∈ mrun .eps s) :
    x = (s, []) := by
  simpa [mrun] using h

theorem mrun_cls_mem {p : Char → Bool} {s : List Char} {x : List Char × Caps}
    (h : x ∈ mrun (.cls p) s) : ∃ c t, s = c :: t ∧ p c = true ∧ x = (t, []) := by
  match s with
  | [] => simp [mrun] at h
  | c :: t =>
    simp only [mrun] at h
    by_cases hp : p c
    · simp [hp] at h; exact ⟨c, t, rfl, hp, h⟩
    · simp [hp] at h

theorem take_all_sat {p : Char → Bool} :
    ∀ (s : List Char) (n : Nat), n ≤ (s.takeWhile p).length → ∀ c ∈ s.take n, p c = true := by
  intro s
  induction s with
  | nil => simp
  | cons a t ih =>
    intro n hn c hc
    by_cases hp : p a
    · match n with
      | 0 => simp at hc
      | m + 1 =>
        simp only [List.takeWhile_cons, hp, if_true, List.length_cons] at hn
        simp only [List.take_succ_cons, List.mem_cons] at hc
        rcases hc with rfl | hc
        · exact hp
        · exact ih m (Nat.le_of_succ_le_succ hn) c hc
    · have hp' : p a = false := by simpa using hp
      simp [List.takeWhile_cons, hp', Nat.le_zero] at hn
      subst hn; simp at hc

theorem mrun_star_mem {p : Char → Bool} {lz : Bool} {s : List Char} {x : List Char × Caps}
    (h : x ∈ mrun (.star p lz) s) :
    ∃ n, x = (s.drop n, []) ∧ ∀ c ∈ s.take n, p c = true := by
  simp only [mrun, List.mem_map] at h
  rcases h with ⟨n, hn, hx⟩
  have hn' : n ≤ (s.takeWhile p).length := by
    rcases lz with _ | _ <;> simp at hn <;> omega
  exact ⟨n, hx.symm, take_all_sat s n hn'⟩

theorem mrun_cat_mem {a b : Re} {s : List Char} {x : List Char × Caps}
    (h : x ∈ mrun (.cat a b) s) :
    ∃ x1 y, x1 ∈ mrun a s ∧ y ∈ mrun b x1.1 ∧ x = (y.1, y.2 ++ x1.2) := by
  simp only [mrun, List.mem_flatMap, List.mem_map] at h
  rcases h with ⟨x1, hx1, y, hy, hx⟩
  exact ⟨x1, y, hx1, hy, hx.symm⟩

theorem mrun_alt_mem {a b : Re} {s : List Char} {x : List Char × Caps}
    (h : x ∈ mrun (.alt a b) s) : x ∈ mrun a s ∨ x ∈ mrun b s := by
  simpa [mrun] using h

theorem mrun_group_mem {i : Nat} {r : Re} {s : List Char} {x : List Char × Caps}
    (h : x ∈ mrun (.group i r) s) :
    ∃ y, y ∈ mrun r s ∧ x = (y.1, (i, s.take (s.length - y.1.length)) :: y.2) := by
  simp only [mrun, List.mem_map] at h
  rcases h with ⟨y, hy, hx⟩
  exact ⟨y, hy, hx.symm⟩

theorem mrun_eos_mem {s : List Char} {x : List Char × Caps} (h : x ∈ mrun .eos s) :
    x = (s, []) ∧ (s = [] ∨ s = ['\n']) := by
  simp only [mrun] at h
  by_cases hs : s = [] ∨ s = ['\n']
  · have : (s = [] || s = ['\n']) = true := by
      rcases hs with h1 | h1 <;> simp [h1]
    rw [this] at h; simp at h; exact ⟨h, hs⟩
  · have : (s = [] || s = ['\n']) = false := by
      push_neg at hs
      simp [hs.1, hs.2]
    rw [this] at h; simp at h

/-- Whatever the engine leaves unconsumed is a suffix of the input. -/
theorem mrun_suffix : ∀ (r : Re) (s : List Char) (x : List Char × Caps),
    x ∈ mrun r s → x.1 <:+ s := by
  intro r
  induction r with
  | eps =>
    intro s x h; rw [mrun_eps_mem h]
  | cls p =>
    intro s x h
    obtain ⟨c, t, rfl, _, rfl⟩ := mrun_cls_mem h
    exact (List.suffix_cons c t)
  | star p lz =>
    intro s x h
    obtain ⟨n, rfl, _⟩ := mrun_star_mem h
    exact List.drop_suffix n s
  | cat a b iha ihb =>
    intro s x h
    obtain ⟨x1, y, hx1, hy, rfl⟩ := mrun_cat_mem h
    exact (ihb x1.1 y hy).trans (iha s x1 hx1)
  | alt a b iha ihb =>
    intro s x h
    rcases mrun_alt_mem h with h | h
    · exact iha s x h
    · exact ihb s x h
  | group i r ih =>
    intro s x h
    obtain ⟨y, hy, rfl⟩ := mrun_group_mem h
    exact ih s y hy
  | eos =>
    intro s x h; rw [(mrun_eos_mem h).1]

theorem take_append_self (pre rest : List Char) :
    (pre ++ rest).take ((pre ++ rest).length - rest.length) = pre := by
  rw [List.length_append, Nat.add_sub_cancel]
  exact List.take_left pre rest

/-- The consumed part glues back onto the remainder. -/
theorem consumed_append {s rest : List Char} (h : rest <:+ s) :
    s.take (s.length - rest.length) ++ rest = s := by
  obtain ⟨pre, rfl⟩ := h
  rw [take_append_self]

/-- Parametric soundness of recorded captures: if every group subexpression
of `r` satisfies `P` on whatever substring it consumes, then every capture
the engine records satisfies `P`. -/
theorem mrun_caps {P : Nat → List Char → Prop} :
    ∀ r : Re,
      (∀ gi ∈ groupsOf r, ∀ (s' : List Char) (y : List Char × Caps), y ∈ mrun gi.2 s' →
        P gi.1 (s'.take (s'.length - y.1.length))) →
      ∀ (s : List Char) (x : List Char × Caps), x ∈ mrun r s → ∀ e ∈ x.2, P e.1 e.2 := by
  intro r
  induction r with
  | eps =>
    intro _ s x hx e he; rw [mrun_eps_mem hx] at he; simp at he
  | cls p =>
    intro _ s x hx e he
    obtain ⟨c, t, _, _, rfl⟩ := mrun_cls_mem hx; simp at he
  | star p lz =>
    intro _ s x hx e he
    obtain ⟨n, rfl, _⟩ := mrun_star_mem hx; simp at he
  | eos =>
    intro _ s x hx e he; rw [(mrun_eos_mem hx).1] at he; simp at he
  | cat a b iha ihb =>
    intro hg s x hx e he
    obtain ⟨x1, y, hx1, hy, rfl⟩ := mrun_cat_mem hx
    rcases List.mem_append.mp he with h | h
    · exact ihb (fun gi hgi => hg gi (List.mem_append_right _ hgi)) x1.1 y hy e h
    · exact iha (fun gi hgi => hg gi (List.mem_append_left _ hgi)) s x1 hx1 e h
  | alt a b iha ihb =>
    intro hg s x hx e he
    rcases mrun_alt_mem hx with h | h
    · exact iha (fun gi hgi => hg gi (List.mem_append_left _ hgi)) s x h e he
    · exact ihb (fun gi hgi => hg gi (List.mem_append_right _ hgi)) s x h e he
  | group i r ih =>
    intro hg s x hx e he
    obtain ⟨y, hy, rfl⟩ := mrun_group_mem hx
    rcases List.mem_cons.mp he with rfl | he
    · exact hg (i, r) (List.mem_cons_self _ _) s y hy
    · exact ih (fun gi hgi => hg gi (List.mem_cons_of_mem _ hgi)) s y hy e he

/-- Syntactically mandatory groups: `i` is assigned in every match of `r`. -/
def mand : Re → Nat → Bool
  | .group j r, i => j == i || mand r i
  | .cat a b, i => mand a i || mand b i
  | .alt a b, i => mand a i && mand b i
  | _, _ => false

theorem mand_assigned : ∀ (r : Re) (i : Nat), mand r i = true →
    ∀ (s : List Char) (x : List Char × Caps), x ∈ mrun r s → ∃ cs, (i, cs) ∈ x.2 := by
  intro r
  induction r with
  | eps => intro i h; simp [mand] at h
  | cls p => intro i h; simp [mand] at h
  | star p lz => intro i h; simp [mand] at h
  | eos => intro i h; simp [mand] at h
  | cat a b iha ihb =>
    intro i h s x hx
    simp only [mand, Bool.or_eq_true] at h
    obtain ⟨x1, y, hx1, hy, rfl⟩ := mrun_cat_mem hx
    rcases h with h | h
    · obtain ⟨cs, hcs⟩ := iha i h s x1 hx1
      exact ⟨cs, List.mem_append_right _ hcs⟩
    · obtain ⟨cs, hcs⟩ := ihb i h x1.1 y hy
      exact ⟨cs, List.mem_append_left _ hcs⟩
  | alt a b iha ihb =>
    intro i h s x hx
    simp only [mand, Bool.and_eq_true] at h
    rcases mrun_alt_mem hx with hm | hm
    · exact iha i h.1 s x hm
    · exact ihb i h.2 s x hm
  | group j r ih =>
    intro i h s x hx
    obtain ⟨y, hy, rfl⟩ := mrun_group_mem hx
    simp only [mand, Bool.or_eq_true, beq_iff_eq] at h
    rcases h with rfl | h
    · exact ⟨_, List.mem_cons_self _ _⟩
    · obtain ⟨cs, hcs⟩ := ih i h s y hy
      exact ⟨cs, List.mem_cons_of_mem _ hcs⟩

theorem searchAux_nil (r : Re) :
    searchAux r [] = ((mrun r []).head?).map (fun x => (([] : List Char), x.1, x.2)) := rfl

theorem searchAux_cons (r : Re) (c : Char) (t : List Char) :
    searchAux r (c :: t) =
      match (mrun r (c :: t)).head? with
      | some x => some ((c :: t).take ((c :: t).length - x.1.length), x.1, x.2)
      | none => searchAux r t := rfl

/-- A successful search is a priority-maximal engine match anchored at some
suffix, and `group(0)` is the consumed part of that suffix. -/
theorem searchAux_some_spec (r : Re) :
    ∀ (s : List Char) {g0 rest : List Char} {caps : Caps},
      searchAux r s = some (g0, rest, caps) →
      ∃ t, t <:+ s ∧ (rest, caps) ∈ mrun r t ∧ g0 = t.take (t.length - rest.length) := by
  intro s
  induction s with
  | nil =>
    intro g0 rest caps h
    rw [searchAux_nil, Option.map_eq_some'] at h
    obtain ⟨x, hx, hx2⟩ := h
    obtain ⟨x1, x2⟩ := x
    simp only [Prod.mk.injEq] at hx2
    obtain ⟨rfl, rfl, rfl⟩ := hx2
    refine ⟨[], List.suffix_refl _, List.mem_of_mem_head? (by simp [hx]), by simp⟩
  | cons c t ih =>
    intro g0 rest caps h
    rw [searchAux_cons] at h
    split at h
    next x hh =>
      obtain ⟨x1, x2⟩ := x
      simp only [Option.some.injEq, Prod.mk.injEq] at h
      obtain ⟨rfl, rfl, rfl⟩ := h
      exact ⟨c :: t, List.suffix_refl _, List.mem_of_mem_head? (by simp [hh]), rfl⟩
    next hh =>
      obtain ⟨t', h1, h2, h3⟩ := ih h
      exact ⟨t', h1.trans (List.suffix_cons c t), h2, h3⟩

/-- A failed search means no suffix matches at all. -/
theorem searchAux_none_spec (r : Re) :
    ∀ (s : List Char), searchAux r s = none → ∀ t, t <:+ s → mrun r t = [] := by
  intro s
  induction s with
  | nil =>
    intro h t ht
    rw [List.suffix_nil] at ht; subst ht
    rw [searchAux_nil, Option.map_eq_none'] at h
    exact List.head?_eq_none_iff.mp h
  | cons c t ih =>
    intro h u hu
    rw [searchAux_cons] at h
    split at h
    next x hh => exact absurd h (by simp)
    next hh =>
      rcases List.suffix_cons_iff.mp hu with rfl | hu'
      · exact List.head?_eq_none_iff.mp hh
      · exact ih h u hu'

/-! ## `capGet`, `grabLoop`, `pyStrip` lemmas -/

theorem capGet_mem {caps : Caps} {i : Nat} {g : List Char} (h : capGet caps i = some g) :
    (i, g) ∈ caps := by
  unfold capGet at h
  rw [Option.map_eq_some'] at h
  obtain ⟨e, he, rfl⟩ := h
  have h1 : e.1 = i := by simpa using List.find?_some he
  have h2 := List.mem_of_find?_eq_some he
  obtain ⟨e1, e2⟩ := e
  subst h1
  exact h2

theorem capGet_isSome {caps : Caps} {i : Nat} {cs : List Char} (h : (i, cs) ∈ caps) :
    ∃ g, capGet caps i = some g := by
  have : (caps.find? (fun e => e.1 == i)).isSome := by
    rw [List.find?_isSome]
    exact ⟨(i, cs), h, by simp⟩
  obtain ⟨e, he⟩ := Option.isSome_iff_exists.mp this
  exact ⟨e.2, by simp [capGet, he]⟩

theorem capGet_none {caps : Caps} {i : Nat} (h : ∀ e ∈ caps, e.1 ≠ i) :
    capGet caps i = none := by
  unfold capGet
  rw [List.find?_eq_none.mpr (fun e he => by simpa using h e he)]
  rfl

theorem grabLoop_some_spec {caps : Caps} :
    ∀ (l : List Nat) {val : List Char}, grabLoop caps l = some val →
      ∃ i g, (i, g) ∈ caps ∧ val = pyStrip g ∧ pyStrip g ≠ [] := by
  intro l
  induction l with
  | nil => intro val h; simp [grabLoop] at h
  | cons i is ih =>
    intro val h
    rw [grabLoop] at h
    split at h
    next g hg =>
      by_cases hne : pyStrip g ≠ []
      · rw [if_pos hne] at h
        have hv : val = pyStrip g := by injection h with h'; exact h'.symm
        exact ⟨i, g, capGet_mem hg, hv, hne⟩
      · rw [if_neg hne] at h
        exact ih h
    next hg => exact ih h

theorem grabLoop_append_some {caps : Caps} {l1 : List Nat} {val : List Char}
    (h : grabLoop caps l1 = some val) (l2 : List Nat) :
    grabLoop caps (l1 ++ l2) = some val := by
  induction l1 with
  | nil => simp [grabLoop] at h
  | cons i is ih =>
    rw [grabLoop] at h
    rw [List.cons_append, grabLoop]
    split at h
    next g hg =>
      by_cases hne : pyStrip g ≠ []
      · rw [if_pos hne] at h ⊢; exact h
      · rw [if_neg hne] at h ⊢; exact ih h
    next hg => exact ih h

theorem grabLoop_append_none {caps : Caps} {l1 : List Nat}
    (h : grabLoop caps l1 = none) (l2 : List Nat) :
    grabLoop caps (l1 ++ l2) = grabLoop caps l2 := by
  induction l1 with
  | nil => simp
  | cons i is ih =>
    rw [grabLoop] at h
    rw [List.cons_append, grabLoop]
    split at h
    next g hg =>
      by_cases hne : pyStrip g ≠ []
      · rw [if_pos hne] at h; exact absurd h (by simp)
      · rw [if_neg hne] at h ⊢; exact ih h
    next hg => exact ih h

theorem idxFrom_append (m : Nat) : ∀ (i k : Nat), idxFrom i (m + k) = idxFrom i m ++ idxFrom (i + m) k := by
  induction m with
  | zero => intro i k; simp [idxFrom]
  | succ n ih =>
    intro i k
    have h1 : n + 1 + k = (n + k) + 1 := by omega
    rw [h1, idxFrom, ih (i + 1), idxFrom, List.cons_append]
    have h2 : i + 1 + n = i + (n + 1) := by omega
    rw [h2]

theorem dropWhile_head_false {p : Char → Bool} :
    ∀ (l : List Char) {c : Char} {t : List Char}, List.dropWhile p l = c :: t → p c = false := by
  intro l
  induction l with
  | nil => intro c t h; simp at h
  | cons a u ih =>
    intro c t h
    by_cases hp : p a
    · rw [List.dropWhile_cons, if_pos hp] at h
      exact ih h
    · rw [List.dropWhile_cons, if_neg hp] at h
      obtain ⟨rfl, rfl⟩ : a = c ∧ u = t := by simpa using h
      simpa using hp

theorem dropWhile_self {p : Char → Bool} {l : List Char} : (l.dropWhile p).dropWhile p = l.dropWhile p := by
  cases hd : l.dropWhile p with
  | nil => simp
  | cons c t =>
    have hc := dropWhile_head_false l hd
    rw [List.dropWhile_cons, if_neg (by simp [hc])]

theorem mem_dropWhile_of_not {p : Char → Bool} {l : List Char} {c : Char}
    (hc : c ∈ l) (hp : p c = false) : c ∈ l.dropWhile p := by
  rw [← List.takeWhile_append_dropWhile p l, List.mem_append] at hc
  rcases hc with h | h
  · exact absurd (List.mem_takeWhile_imp h) (by simp [hp])
  · exact h

theorem pyStrip_subset {s : List Char} : ∀ c ∈ pyStrip s, c ∈ s := by
  intro c hc
  unfold pyStrip at hc
  rw [List.mem_reverse] at hc
  have h1 := (List.dropWhile_sublist (l := (s.dropWhile isPySpace).reverse) isPySpace).subset hc
  rw [List.mem_reverse] at h1
  exact (List.dropWhile_sublist isPySpace).subset h1

theorem mem_pyStrip {s : List Char} {c : Char} (hc : c ∈ s) (hp : isPySpace c = false) :
    c ∈ pyStrip s := by
  unfold pyStrip
  rw [List.mem_reverse]
  exact mem_dropWhile_of_not (by rw [List.mem_reverse]; exact mem_dropWhile_of_not hc hp) hp

theorem pyStrip_ne_nil {s : List Char} {c : Char} (hc : c ∈ s) (hp : isPySpace c = false) :
    pyStrip s ≠ [] := fun h => by simpa [h] using mem_pyStrip hc hp

/-- The stripped string decomposes the leading-stripped string as
`stripped ++ trailing-space`. -/
theorem pyStrip_decomp (s : List Char) :
    ∃ u : List Char, s.dropWhile isPySpace = pyStrip s ++ u := by
  obtain ⟨u, hu⟩ := List.dropWhile_suffix (l := (s.dropWhile isPySpace).reverse) isPySpace
  refine ⟨u.reverse, ?_⟩
  unfold pyStrip
  calc s.dropWhile isPySpace = (s.dropWhile isPySpace).reverse.reverse := by rw [List.reverse_reverse]
    _ = (u ++ ((s.dropWhile isPySpace).reverse.dropWhile isPySpace)).reverse := by rw [hu]
    _ = ((s.dropWhile isPySpace).reverse.dropWhile isPySpace).reverse ++ u.reverse := by
          rw [List.reverse_append]

theorem pyStrip_head_false {s : List Char} {c : Char} {t : List Char}
    (h : pyStrip s = c :: t) : isPySpace c = false := by
  obtain ⟨u, hu⟩ := pyStrip_decomp s
  rw [h, List.cons_append] at hu
  exact dropWhile_head_false s hu

theorem pyStrip_idem (s : List Char) : pyStrip (pyStrip s) = pyStrip s := by
  have h1 : (pyStrip s).dropWhile isPySpace = pyStrip s := by
    cases hx : pyStrip s with
    | nil => simp
    | cons c t =>
      rw [List.dropWhile_cons, if_neg (by simp [pyStrip_head_false hx])]
  show (((pyStrip s).dropWhile isPySpace).reverse.dropWhile isPySpace).reverse = pyStrip s
  rw [h1]
  show ((((s.dropWhile isPySpace).reverse.dropWhile isPySpace).reverse).reverse.dropWhile isPySpace).reverse
      = pyStrip s
  rw [List.reverse_reverse, dropWhile_self]
  rfl

/-! ## Digit-string facts about the numeric capture groups -/

/-- The string contains at least one ASCII digit. -/
def HasDigit (cs : List Char) : Prop := ∃ c ∈ cs, isPyDigit c = true

/-- A capture produced by `\d+(\.\d+)?` or `\.\d+`: contains a digit, and
every character is a digit or a dot. -/
def DigitStr (cs : List Char) : Prop :=
  HasDigit cs ∧ ∀ c ∈ cs, isPyDigit c = true ∨ c = '.'

theorem digit_not_space {c : Char} (h : isPyDigit c = true) : isPySpace c = false := by
  by_contra hs
  rw [Bool.not_eq_false] at hs
  simp only [isPySpace, Bool.or_eq_true, beq_iff_eq] at hs
  rcases hs with ((((rfl | rfl) | rfl) | rfl) | rfl) | rfl <;> exact absurd h (by decide)

theorem digit_ne_minus {c : Char} (h : isPyDigit c = true) : c ≠ '-' := by
  rintro rfl; exact absurd h (by decide)

theorem digit_ne_comma {c : Char} (h : isPyDigit c = true) : c ≠ ',' := by
  rintro rfl; exact absurd h (by decide)

theorem digitStr_no_minus {cs : List Char} (h : DigitStr cs) : ∀ c ∈ cs, c ≠ '-' := by
  intro c hc
  rcases h.2 c hc with hd | rfl
  · exact digit_ne_minus hd
  · decide

theorem mrun_cat_intro {a b : Re} {s : List Char} {x1 y : List Char × Caps}
    (h1 : x1 ∈ mrun a s) (h2 : y ∈ mrun b x1.1) : (y.1, y.2 ++ x1.2) ∈ mrun (.cat a b) s := by
  simp only [mrun, List.mem_flatMap, List.mem_map]
  exact ⟨x1, h1, y, h2, rfl⟩

/-- A quantifier `p+` (greedy or lazy) consumes a non-empty run of `p`-characters and
records nothing. -/
theorem mrun_plusG_mem {p : Char → Bool} {s : List Char} {x : List Char × Caps}
    (h : x ∈ mrun (plusG p) s) :
    ∃ pre, s = pre ++ x.1 ∧ x.2 = [] ∧ pre ≠ [] ∧ ∀ c ∈ pre, p c = true := by
  unfold plusG at h
  obtain ⟨x1, y, hx1, hy, rfl⟩ := mrun_cat_mem h
  obtain ⟨c, t, rfl, hp, rfl⟩ := mrun_cls_mem hx1
  obtain ⟨n, rfl, hchars⟩ := mrun_star_mem hy
  refine ⟨c :: t.take n, ?_, rfl, by simp, ?_⟩
  · simp [List.take_append_drop]
  · intro d hd
    rcases List.mem_cons.mp hd with rfl | hd
    · exact hp
    · exact hchars d hd

theorem mrun_fracRe_mem {s : List Char} {x : List Char × Caps} (h : x ∈ mrun fracRe s) :
    ∃ pre, s = pre ++ x.1 ∧ DigitStr pre := by
  unfold fracRe at h
  obtain ⟨x1, y, hx1, hy, rfl⟩ := mrun_cat_mem h
  obtain ⟨c, t, rfl, hp, rfl⟩ := mrun_cls_mem hx1
  obtain ⟨pre2, rfl, _, hne, hdig⟩ := mrun_plusG_mem hy
  refine ⟨c :: pre2, by simp, ?_, ?_⟩
  · obtain ⟨d, hd⟩ := List.exists_mem_of_ne_nil pre2 hne
    exact ⟨d, List.mem_cons_of_mem _ hd, hdig d hd⟩
  · intro d hd
    rcases List.mem_cons.mp hd with rfl | hd
    · right; simpa using hp
    · left; exact hdig d hd

theorem mrun_numBody_mem {j : Nat} {s : List Char} {x : List Char × Caps}
    (h : x ∈ mrun (numBody j) s) : ∃ pre, s = pre ++ x.1 ∧ DigitStr pre := by
  unfold numBody optG at h
  obtain ⟨x1, y, hx1, hy, rfl⟩ := mrun_cat_mem h
  obtain ⟨pre1, rfl, _, hne, hdig⟩ := mrun_plusG_mem hx1
  have hd1 : HasDigit pre1 := by
    obtain ⟨d, hd⟩ := List.exists_mem_of_ne_nil pre1 hne
    exact ⟨d, hd, hdig d hd⟩
  rcases mrun_alt_mem hy with hg | he
  · obtain ⟨z, hz, rfl⟩ := mrun_group_mem hg
    obtain ⟨pre2, heq, hds2⟩ := mrun_fracRe_mem hz
    refine ⟨pre1 ++ pre2, by rw [heq]; simp, ?_, ?_⟩
    · obtain ⟨d, hd, hdd⟩ := hd1
      exact ⟨d, List.mem_append_left _ hd, hdd⟩
    · intro d hd
      rcases List.mem_append.mp hd with hd | hd
      · left; exact hdig d hd
      · exact hds2.2 d hd
  · rw [mrun_eps_mem he]
    exact ⟨pre1, rfl, hd1, fun d hd => Or.inl (hdig d hd)⟩

theorem consumed_take {s rest pre : List Char} (h : s = pre ++ rest) :
    s.take (s.length - rest.length) = pre := by
  subst h; exact take_append_self pre rest

/-- A group subexpression all of whose matches consume digit strings. -/
def GoodNumGroup (sub : Re) : Prop :=
  ∀ (s : List Char) (y : List Char × Caps), y ∈ mrun sub s →
    DigitStr (s.take (s.length - y.1.length))

/-- All capture groups of the pattern are numeric captures. -/
def DigitGroups (r : Re) : Prop := ∀ gi ∈ groupsOf r, GoodNumGroup gi.2

theorem goodNumGroup_numBody (j : Nat) : GoodNumGroup (numBody j) := by
  intro s y hy
  obtain ⟨pre, heq, hds⟩ := mrun_numBody_mem hy
  rw [consumed_take heq]
  exact hds

theorem goodNumGroup_fracRe : GoodNumGroup fracRe := by
  intro s y hy
  obtain ⟨pre, heq, hds⟩ := mrun_fracRe_mem hy
  rw [consumed_take heq]
  exact hds

theorem digitGroups_caps {r : Re} (hd : DigitGroups r) {s : List Char} {x : List Char × Caps}
    (hx : x ∈ mrun r s) : ∀ e ∈ x.2, DigitStr e.2 :=
  mrun_caps (P := fun _ cs => DigitStr cs) r (fun gi hgi s' y hy => hd gi hgi s' y hy) s x hx

theorem digitGroups_two {pat : Re} (h : groupsOf pat = [(1, numBody 2), (2, fracRe)]) :
    DigitGroups pat := by
  intro gi hgi
  rw [h] at hgi
  rcases List.mem_cons.mp hgi with rfl | hgi
  · exact goodNumGroup_numBody 2
  · rcases List.mem_cons.mp hgi with rfl | hgi
    · exact goodNumGroup_fracRe
    · simp at hgi

theorem digitGroups_four {pat : Re}
    (h : groupsOf pat = [(1, numBody 2), (2, fracRe), (3, numBody 4), (4, fracRe)]) :
    DigitGroups pat := by
  intro gi hgi
  rw [h] at hgi
  simp only [List.mem_cons, List.not_mem_nil, or_false] at hgi
  rcases hgi with rfl | rfl | rfl | rfl
  · exact goodNumGroup_numBody 2
  · exact goodNumGroup_fracRe
  · exact goodNumGroup_numBody 4
  · exact goodNumGroup_fracRe

/-! ## What `grab` can return, and when `to_float` succeeds -/

/-- A successful `_grab` returns the strip of some capture of a real match
of the pattern at some position of the text; the value is non-empty and
already stripped. -/
theorem grab_some_spec {text : List Char} {r : Re} {val : List Char} (h : grab text r = some val) :
    val ≠ [] ∧ pyStrip val = val ∧
      ∃ t rest caps, t <:+ text ∧ (rest, caps) ∈ mrun r t ∧
        ∃ i g, (i, g) ∈ caps ∧ val = pyStrip g := by
  unfold grab at h
  split at h
  next => exact absurd h (by simp)
  next g0 rest caps hs =>
    obtain ⟨i, g, hmem, hval, hne⟩ := grabLoop_some_spec _ h
    obtain ⟨t, hsuf, hmm, _⟩ := searchAux_some_spec r text hs
    subst hval
    exact ⟨hne, pyStrip_idem g, t, rest, caps, hsuf, hmm, i, g, hmem, rfl⟩

/-- For a pattern all of whose groups are numeric captures, a `_grab` result
contains a digit and no minus sign. -/
theorem grab_digit {r : Re} (hd : DigitGroups r) {text val : List Char}
    (h : grab text r = some val) : HasDigit val ∧ ∀ c ∈ val, c ≠ '-' := by
  obtain ⟨hne, hstr, t, rest, caps, hsuf, hmm, i, g, hmem, rfl⟩ := grab_some_spec h
  have hds : DigitStr g := digitGroups_caps hd hmm (i, g) hmem
  constructor
  · obtain ⟨d, hdg, hdd⟩ := hds.1
    exact ⟨d, mem_pyStrip hdg (digit_not_space hdd), hdd⟩
  · intro c hc
    exact digitStr_no_minus hds c (pyStrip_subset c hc)

/-- The regex `-?\d+(\.\d+)?` matches at any digit. -/
theorem mrun_numRe0_ne_nil {c : Char} {t : List Char} (hc : isPyDigit c = true) :
    mrun numRe0 (c :: t) ≠ [] := by
  have e1 : ((c :: t, []) : List Char × Caps) ∈
      mrun (.alt (.cls (fun x => x == '-')) .eps) (c :: t) :=
    List.mem_append_right _ (by simp [mrun])
  have e2 : ((t, []) : List Char × Caps) ∈ mrun (.cls isPyDigit) (c :: t) := by
    simp [mrun, hc]
  have e3 : ((t.drop (t.takeWhile isPyDigit).length, []) : List Char × Caps) ∈
      mrun (.star isPyDigit false) t := by
    simp only [mrun, List.mem_map]
    exact ⟨(t.takeWhile isPyDigit).length, by simp, rfl⟩
  have e4 := mrun_cat_intro e2 e3
  have e5 : ((t.drop (t.takeWhile isPyDigit).length, []) : List Char × Caps) ∈
      mrun (.alt (.group 1 (.cat (.cls (fun x => x == '.'))
        (.cat (.cls isPyDigit) (.star isPyDigit false)))) .eps)
        (t.drop (t.takeWhile isPyDigit).length) :=
    List.mem_append_right _ (by simp [mrun])
  have e6 := mrun_cat_intro e4 e5
  have e7 := mrun_cat_intro e1 e6
  exact List.ne_nil_of_mem e7

theorem searchAux_numRe0_isSome {s : List Char} (h : ∃ c ∈ s, isPyDigit c = true) :
    ∃ y, searchAux numRe0 s = some y := by
  cases hs : searchAux numRe0 s with
  | some y => exact ⟨y, rfl⟩
  | none =>
    obtain ⟨c, hc, hcd⟩ := h
    obtain ⟨u, v, rfl⟩ := List.append_of_mem hc
    have hnil : mrun numRe0 (c :: v) = [] :=
      searchAux_none_spec numRe0 _ hs (c :: v) ⟨u, rfl⟩
    exact absurd hnil (mrun_numRe0_ne_nil hcd)

theorem parseUnsigned_nonneg (cs : List Char) : 0 ≤ parseUnsigned cs := by
  unfold parseUnsigned
  rw [Rat.mkRat_eq_div]
  positivity

theorem parseFloat_nonneg {cs : List Char} (h : ∀ c ∈ cs, c ≠ '-') : 0 ≤ parseFloat cs := by
  unfold parseFloat
  rw [if_neg ?hn]
  · exact parseUnsigned_nonneg cs
  case hn =>
    intro hh
    exact h '-' (List.mem_of_mem_head? (by simp [hh])) rfl

/-- On a minus-free string containing a digit, `_to_float` succeeds with a
non-negative value. -/
theorem to_float_some {val : List Char} (hd : HasDigit val) (hm : ∀ c ∈ val, c ≠ '-') :
    ∃ q, to_float (some val) = some q ∧ 0 ≤ q := by
  obtain ⟨c, hc, hcd⟩ := hd
  have h1 : c ∈ pyStrip val := mem_pyStrip hc (digit_not_space hcd)
  have hne : ¬(pyStrip val = []) := fun hh => by rw [hh] at h1; simp at h1
  have h2 : c ∈ (pyStrip val).filter (fun x => x ≠ ',') := by
    rw [List.mem_filter]
    exact ⟨h1, by simpa using digit_ne_comma hcd⟩
  obtain ⟨y, hy⟩ := searchAux_numRe0_isSome ⟨c, h2, hcd⟩
  obtain ⟨g0, rest, caps⟩ := y
  obtain ⟨t, hsuf, hmm, hg0⟩ := searchAux_some_spec numRe0 _ hy
  have hg0m : ∀ d ∈ g0, d ≠ '-' := by
    intro d hdg
    have h3 : d ∈ t := by
      rw [hg0] at hdg
      exact List.take_subset _ _ hdg
    have h4 := hsuf.subset h3
    rw [List.mem_filter] at h4
    exact hm d (pyStrip_subset d h4.1)
  refine ⟨parseFloat g0, ?_, parseFloat_nonneg hg0m⟩
  show (if pyStrip val = [] then none
      else match searchAux numRe0 ((pyStrip val).filter (fun c => c ≠ ',')) with
        | some (g0, _, _) => some (parseFloat g0)
        | none => none) = some (parseFloat g0)
  rw [if_neg hne, hy]

/-! ## Dict lemmas and the result invariant -/

theorem lookupKey_cons_pos {e : String × PyVal} {m : List (String × PyVal)} {k : String}
    (h : e.1 == k) : lookupKey (e :: m) k = some e.2 := by
  simp [lookupKey, List.find?_cons, h]

theorem lookupKey_cons_neg {e : String × PyVal} {m : List (String × PyVal)} {k : String}
    (h : ¬(e.1 == k)) : lookupKey (e :: m) k = lookupKey m k := by
  have hf : (e.1 == k) = false := by simpa using h
  simp [lookupKey, List.find?_cons, hf]

theorem lookupKey_setKey_self : ∀ (m : List (String × PyVal)) (k : String) (v : PyVal),
    lookupKey (setKey m k v) k = some v := by
  intro m k v
  unfold setKey
  split
  next hany =>
    induction m with
    | nil => simp at hany
    | cons e es ih =>
      rw [List.map_cons]
      by_cases he : e.1 == k
      · rw [if_pos he, lookupKey_cons_pos (show (k, v).1 == k by simp)]
      · rw [if_neg he, lookupKey_cons_neg he]
        exact ih (by simpa [List.any_cons, he] using hany)
  next hany =>
    induction m with
    | nil => exact lookupKey_cons_pos (by simp)
    | cons e es ih =>
      rw [List.cons_append]
      have he : ¬(e.1 == k) := fun hh => hany (by simp [List.any_cons, hh])
      rw [lookupKey_cons_neg he]
      exact ih (fun hh => hany (by simp only [List.any_cons, Bool.or_eq_true]; exact Or.inr hh))

theorem lookupKey_map_ne (k k' : String) (hne : k' ≠ k) (v : PyVal) :
    ∀ m : List (String × PyVal),
      lookupKey (m.map (fun e => if e.1 == k then (k, v) else e)) k' = lookupKey m k' := by
  intro m
  induction m with
  | nil => rfl
  | cons e es ih =>
    rw [List.map_cons]
    by_cases he : e.1 == k
    · have hek : e.1 = k := by simpa using he
      have h1 : ¬(((k, v) : String × PyVal).1 == k') := by
        simp only [beq_iff_eq]
        exact fun hh => hne hh.symm
      have h2 : ¬(e.1 == k') := by
        simp only [beq_iff_eq, hek]
        exact fun hh => hne hh.symm
      rw [if_pos he, lookupKey_cons_neg h1, lookupKey_cons_neg h2, ih]
    · rw [if_neg he]
      by_cases he' : e.1 == k'
      · rw [lookupKey_cons_pos he', lookupKey_cons_pos he']
      · rw [lookupKey_cons_neg he', lookupKey_cons_neg he', ih]

theorem lookupKey_append_ne (k k' : String) (hne : k' ≠ k) (v : PyVal) :
    ∀ m : List (String × PyVal), lookupKey (m ++ [(k, v)]) k' = lookupKey m k' := by
  intro m
  induction m with
  | nil =>
    have h1 : ¬(((k, v) : String × PyVal).1 == k') := by
      simp only [beq_iff_eq]
      exact fun hh => hne hh.symm
    rw [List.nil_append, lookupKey_cons_neg h1]
  | cons e es ih =>
    rw [List.cons_append]
    by_cases he' : e.1 == k'
    · rw [lookupKey_cons_pos he', lookupKey_cons_pos he']
    · rw [lookupKey_cons_neg he', lookupKey_cons_neg he', ih]

theorem lookupKey_setKey_ne (m : List (String × PyVal)) (k k' : String) (v : PyVal)
    (hne : k' ≠ k) : lookupKey (setKey m k v) k' = lookupKey m k' := by
  unfold setKey
  split
  · exact lookupKey_map_ne k k' hne v m
  · exact lookupKey_append_ne k k' hne v m

/-! ## The pipeline invariant -/

/-- Every numeric-key pattern captures only digit strings. -/
theorem numeric_digitGroups :
    ∀ kp ∈ LABEL_PATTERNS, kp.1 ∈ NUMERIC_KEYS → DigitGroups kp.2 := by
  intro kp hkp hnum
  fin_cases hkp
  all_goals first
    | exact absurd hnum (by decide)
    | exact digitGroups_two rfl
    | exact digitGroups_four rfl

/-- Value well-formedness for a field key: numeric keys hold non-negative
floats, text keys hold non-empty stripped strings. -/
def GoodVal (k : String) (v : PyVal) : Prop :=
  (k ∈ NUMERIC_KEYS → ∃ q, v = .vnum q ∧ 0 ≤ q) ∧
  (k ∉ NUMERIC_KEYS → ∃ s, v = .vstr s ∧ s ≠ [] ∧ pyStrip s = s)

/-- Invariant carried through the pattern loop and the model fix. -/
def Inv (text : List Char) (out : List (String × PyVal)) : Prop :=
  lookupKey out "_raw_text" = some (.vstr text) ∧
  ∀ k v, lookupKey out k = some v → k = "_raw_text" ∨ (k ∈ PKeys ∧ GoodVal k v)

theorem raw_not_pattern_key : "_raw_text" ∉ PKeys := by decide

theorem stepPat_inv {text : List Char} {out : List (String × PyVal)} {kp : String × Re}
    (hkp : kp ∈ LABEL_PATTERNS) (hinv : Inv text out) : Inv text (stepPat text out kp) := by
  unfold stepPat
  split
  next => exact hinv
  next val hval =>
    have hkey : kp.1 ∈ PKeys := List.mem_map_of_mem Prod.fst hkp
    have hraw : kp.1 ≠ "_raw_text" := fun hh => raw_not_pattern_key (hh ▸ hkey)
    by_cases hnum : kp.1 ∈ NUMERIC_KEYS
    · rw [if_pos hnum]
      have hd := grab_digit (numeric_digitGroups kp hkp hnum) hval
      obtain ⟨q, hq, hq0⟩ := to_float_some hd.1 hd.2
      constructor
      · rw [lookupKey_setKey_ne _ _ _ _ (fun hh => hraw hh.symm)]
        exact hinv.1
      · intro k v hv
        by_cases hk : k = kp.1
        · subst hk
          rw [lookupKey_setKey_self, hq] at hv
          injection hv with hv2
          right
          exact ⟨hkey, fun _ => ⟨q, hv2.symm, hq0⟩, fun hc => absurd hnum hc⟩
        · rw [lookupKey_setKey_ne _ _ _ _ hk] at hv
          exact hinv.2 k v hv
    · rw [if_neg hnum]
      constructor
      · rw [lookupKey_setKey_ne _ _ _ _ (fun hh => hraw hh.symm)]
        exact hinv.1
      · intro k v hv
        by_cases hk : k = kp.1
        · subst hk
          rw [lookupKey_setKey_self] at hv
          injection hv with hv2
          right
          obtain ⟨hne, hstr, _⟩ := grab_some_spec hval
          exact ⟨hkey, fun hc => absurd hc hnum, fun _ => ⟨val, hv2.symm, hne, hstr⟩⟩
        · rw [lookupKey_setKey_ne _ _ _ _ hk] at hv
          exact hinv.2 k v hv

theorem foldl_inv {text : List Char} :
    ∀ (ps : List (String × Re)) (out : List (String × PyVal)),
      (∀ kp ∈ ps, kp ∈ LABEL_PATTERNS) → Inv text out →
      Inv text (ps.foldl (stepPat text) out) := by
  intro ps
  induction ps with
  | nil => intro out _ h; exact h
  | cons kp ps ih =>
    intro out hmem h
    rw [List.foldl_cons]
    exact ih _ (fun x hx => hmem x (List.mem_cons_of_mem _ hx))
      (stepPat_inv (hmem kp (List.mem_cons_self _ _)) h)

theorem applyPatterns_inv (text : List Char) : Inv text (applyPatterns text) := by
  unfold applyPatterns
  apply foldl_inv _ _ (fun kp hk => hk)
  constructor
  · exact lookupKey_cons_pos (by simp)
  · intro k v hv
    by_cases hk : (("_raw_text", PyVal.vstr text) : String × PyVal).1 == k
    · left
      have hk' : "_raw_text" = k := by simpa using hk
      exact hk'.symm
    · rw [lookupKey_cons_neg hk] at hv
      simp [lookupKey] at hv

theorem fixModel_inv {text : List Char} {out : List (String × PyVal)} (h : Inv text out) :
    Inv text (fixModel out) := by
  unfold fixModel
  split
  next s hs =>
    split
    next hcond =>
      obtain ⟨hne0, hlen⟩ := hcond
      have hmv := h.2 "model" (.vstr s) hs
      rcases hmv with hh | ⟨hk, hgv⟩
      · exact absurd hh (by decide)
      obtain ⟨s', hs', hs'ne, hs'str⟩ := hgv.2 (by decide)
      have hss : s = s' := by injection hs'
      subst hss
      obtain ⟨c, t, rfl⟩ : ∃ c t, s = c :: t := by
        cases s with
        | nil => exact absurd rfl hs'ne
        | cons c t => exact ⟨c, t, rfl⟩
      have hc : isPySpace c = false := pyStrip_head_false hs'str
      have hmem60 : c ∈ (c :: t).take 60 := by
        rw [show ((c :: t).take 60) = c :: t.take 59 from rfl]
        exact List.mem_cons_self _ _
      have hwne : pyStrip ((c :: t).take 60) ≠ [] := pyStrip_ne_nil hmem60 hc
      constructor
      · rw [lookupKey_setKey_ne _ _ _ _ (by decide)]
        exact h.1
      · intro k v hv
        by_cases hk2 : k = "model"
        · subst hk2
          rw [lookupKey_setKey_self] at hv
          injection hv with hv2
          right
          refine ⟨by decide, fun hc2 => absurd hc2 (by decide), fun _ => ?_⟩
          exact ⟨pyStrip ((c :: t).take 60), hv2.symm, hwne, pyStrip_idem _⟩
        · rw [lookupKey_setKey_ne _ _ _ _ hk2] at hv
          exact h.2 k v hv
    next => exact h
  next => exact h

theorem extractFromText_inv (text : List Char) : Inv text (extractFromText text) :=
  fixModel_inv (applyPatterns_inv text)

/-! ## `_grab` agrees with the spec's group-selection rule on every table
pattern -/

theorem grab_eq_spec_single {pat b : Re} (hg : groupsOf pat = [(1, b)])
    (hN : maxGroup pat = 1) (text : List Char) : grab text pat = grabSpec text pat := by
  unfold grab grabSpec
  cases hs : searchAux pat text with
  | none => rfl
  | some y =>
    obtain ⟨g0, rest, caps⟩ := y
    show grabLoop caps (idxFrom 1 (lastIndex caps)) = grabLoop caps (idxFrom 1 (maxGroup pat))
    obtain ⟨t, _, hmem, _⟩ := searchAux_some_spec pat text hs
    have hidx : ∀ e ∈ caps, e.1 = 1 := by
      intro e he
      refine mrun_caps (P := fun i _ => i = 1) pat ?_ t (rest, caps) hmem e he
      intro gi hgi s' y hy
      rw [hg] at hgi
      simp only [List.mem_singleton] at hgi
      rw [hgi]
    rw [hN]
    cases caps with
    | nil => rfl
    | cons e es =>
      show grabLoop (e :: es) (idxFrom 1 e.1) = grabLoop (e :: es) (idxFrom 1 1)
      rw [hidx e (List.mem_cons_self _ _)]

theorem grab_eq_spec_numTwo {pat : Re} (hg : groupsOf pat = [(1, numBody 2), (2, fracRe)])
    (hm : mand pat 1 = true) (hN : maxGroup pat = 2) (text : List Char) :
    grab text pat = grabSpec text pat := by
  unfold grab grabSpec
  cases hs : searchAux pat text with
  | none => rfl
  | some y =>
    obtain ⟨g0, rest, caps⟩ := y
    show grabLoop caps (idxFrom 1 (lastIndex caps)) = grabLoop caps (idxFrom 1 (maxGroup pat))
    obtain ⟨t, _, hmem, _⟩ := searchAux_some_spec pat text hs
    obtain ⟨cs, hcs⟩ := mand_assigned pat 1 hm t (rest, caps) hmem
    have hdg : ∀ e ∈ caps, DigitStr e.2 := digitGroups_caps (digitGroups_two hg) hmem
    obtain ⟨g, hgget⟩ := capGet_isSome hcs
    have hg1 : DigitStr g := hdg _ (capGet_mem hgget)
    have hgne : pyStrip g ≠ [] := by
      obtain ⟨⟨d, hd1, hd2⟩, _⟩ := hg1
      exact pyStrip_ne_nil hd1 (digit_not_space hd2)
    have hidx : ∀ e ∈ caps, e.1 = 1 ∨ e.1 = 2 := by
      intro e he
      refine mrun_caps (P := fun i _ => i = 1 ∨ i = 2) pat ?_ t (rest, caps) hmem e he
      intro gi hgi s' y hy
      rw [hg] at hgi
      rcases List.mem_cons.mp hgi with rfl | hgi
      · exact Or.inl rfl
      rcases List.mem_cons.mp hgi with rfl | hgi
      · exact Or.inr rfl
      · simp at hgi
    have hloop : ∀ l : List Nat, grabLoop caps (1 :: l) = some (pyStrip g) := by
      intro l
      simp [grabLoop, hgget, hgne]
    rw [hN]
    cases caps with
    | nil => simp at hcs
    | cons e es =>
      rcases hidx e (List.mem_cons_self _ _) with h1 | h1
      · show grabLoop (e :: es) (idxFrom 1 e.1) = grabLoop (e :: es) (idxFrom 1 2)
        rw [h1, show idxFrom 1 1 = [1] from rfl, show idxFrom 1 2 = [1, 2] from rfl,
          hloop [], hloop [2]]
      · show grabLoop (e :: es) (idxFrom 1 e.1) = grabLoop (e :: es) (idxFrom 1 2)
        rw [h1]

theorem grab_eq_spec_maxamps (text : List Char) :
    grab text patMaxAmpsA = grabSpec text patMaxAmpsA := by
  unfold grab grabSpec
  cases hs : searchAux patMaxAmpsA text with
  | none => rfl
  | some y =>
    obtain ⟨g0, rest, caps⟩ := y
    show grabLoop caps (idxFrom 1 (lastIndex caps))
        = grabLoop caps (idxFrom 1 (maxGroup patMaxAmpsA))
    obtain ⟨t, _, hmem, _⟩ := searchAux_some_spec _ text hs
    rw [show maxGroup patMaxAmpsA = 4 from rfl]
    have hmem' : (rest, caps) ∈ mrun patMaxAmpsA1 t ∨ (rest, caps) ∈ mrun patMaxAmpsA2 t :=
      mrun_alt_mem hmem
    rcases hmem' with hA | hB
    · obtain ⟨cs, hcs⟩ := mand_assigned patMaxAmpsA1 1 rfl t (rest, caps) hA
      have hdgA : DigitGroups patMaxAmpsA1 := digitGroups_two rfl
      have hdg : ∀ e ∈ caps, DigitStr e.2 := digitGroups_caps hdgA hA
      obtain ⟨g, hgget⟩ := capGet_isSome hcs
      have hg1 : DigitStr g := hdg _ (capGet_mem hgget)
      have hgne : pyStrip g ≠ [] := by
        obtain ⟨⟨d, hd1, hd2⟩, _⟩ := hg1
        exact pyStrip_ne_nil hd1 (digit_not_space hd2)
      have hidx : ∀ e ∈ caps, e.1 = 1 ∨ e.1 = 2 := by
        intro e he
        refine mrun_caps (P := fun i _ => i = 1 ∨ i = 2) patMaxAmpsA1 ?_ t (rest, caps) hA e he
        intro gi hgi s' y hy
        rw [show groupsOf patMaxAmpsA1 = [(1, numBody 2), (2, fracRe)] from rfl] at hgi
        rcases List.mem_cons.mp hgi with rfl | hgi
        · exact Or.inl rfl
        rcases List.mem_cons.mp hgi with rfl | hgi
        · exact Or.inr rfl
        · simp at hgi
      have hloop : ∀ l : List Nat, grabLoop caps (1 :: l) = some (pyStrip g) := by
        intro l
        simp [grabLoop, hgget, hgne]
      cases caps with
      | nil => simp at hcs
      | cons e es =>
        rcases hidx e (List.mem_cons_self _ _) with h1 | h1
        · show grabLoop (e :: es) (idxFrom 1 e.1) = grabLoop (e :: es) (idxFrom 1 4)
          rw [h1, show idxFrom 1 1 = [1] from rfl, show idxFrom 1 4 = [1, 2, 3, 4] from rfl,
            hloop [], hloop [2, 3, 4]]
        · show grabLoop (e :: es) (idxFrom 1 e.1) = grabLoop (e :: es) (idxFrom 1 4)
          rw [h1, show idxFrom 1 2 = [1, 2] from rfl, show idxFrom 1 4 = [1, 2, 3, 4] from rfl,
            hloop [2], hloop [2, 3, 4]]
    · obtain ⟨cs, hcs⟩ := mand_assigned patMaxAmpsA2 3 rfl t (rest, caps) hB
      have hdg : ∀ e ∈ caps, DigitStr e.2 := by
        refine digitGroups_caps ?_ hB
        intro gi hgi
        rw [show groupsOf patMaxAmpsA2 = [(3, numBody 4), (4, fracRe)] from rfl] at hgi
        rcases List.mem_cons.mp hgi with rfl | hgi
        · exact goodNumGroup_numBody 4
        rcases List.mem_cons.mp hgi with rfl | hgi
        · exact goodNumGroup_fracRe
        · simp at hgi
      obtain ⟨g, hgget⟩ := capGet_isSome hcs
      have hg1 : DigitStr g := hdg _ (capGet_mem hgget)
      have hgne : pyStrip g ≠ [] := by
        obtain ⟨⟨d, hd1, hd2⟩, _⟩ := hg1
        exact pyStrip_ne_nil hd1 (digit_not_space hd2)
      have hidx : ∀ e ∈ caps, e.1 = 3 ∨ e.1 = 4 := by
        intro e he
        refine mrun_caps (P := fun i _ => i = 3 ∨ i = 4) patMaxAmpsA2 ?_ t (rest, caps) hB e he
        intro gi hgi s' y hy
        rw [show groupsOf patMaxAmpsA2 = [(3, numBody 4), (4, fracRe)] from rfl] at hgi
        rcases List.mem_cons.mp hgi with rfl | hgi
        · exact Or.inl rfl
        rcases List.mem_cons.mp hgi with rfl | hgi
        · exact Or.inr rfl
        · simp at hgi
      have hget1 : capGet caps 1 = none := capGet_none (fun e he => by
        rcases hidx e he with h | h <;> omega)
      have hget2 : capGet caps 2 = none := capGet_none (fun e he => by
        rcases hidx e he with h | h <;> omega)
      have hloop : ∀ l : List Nat, grabLoop caps (1 :: 2 :: 3 :: l) = some (pyStrip g) := by
        intro l
        simp [grabLoop, hget1, hget2, hgget, hgne]
      cases caps with
      | nil => simp at hcs
      | cons e es =>
        rcases hidx e (List.mem_cons_self _ _) with h1 | h1
        · show grabLoop (e :: es) (idxFrom 1 e.1) = grabLoop (e :: es) (idxFrom 1 4)
          rw [h1, show idxFrom 1 3 = [1, 2, 3] from rfl, show idxFrom 1 4 = [1, 2, 3, 4] from rfl,
            hloop [], hloop [4]]
        · show grabLoop (e :: es) (idxFrom 1 e.1) = grabLoop (e :: es) (idxFrom 1 4)
          rw [h1]

/-! ## `fixModel` helpers -/

theorem fixModel_model_eq {out : List (String × PyVal)} {s : List Char}
    (hs : lookupKey out "model" = some (PyVal.vstr s)) :
    fixModel out = if s ≠ [] ∧ 60 < s.length
      then setKey out "model" (PyVal.vstr (pyStrip (s.take 60))) else out := by
  unfold fixModel
  rw [hs]

theorem fixModel_lookup_ne (out : List (String × PyVal)) (k : String) (hk : k ≠ "model") :
    lookupKey (fixModel out) k = lookupKey out k := by
  unfold fixModel
  split
  next s hs =>
    split
    next => rw [lookupKey_setKey_ne _ _ _ _ hk]
    next => rfl
  next => rfl

/-! ## Claim theorems -/

/-- Claim C1 (absence invariant): for every document text and every Field
Definition key, the Extraction Result either misses the key entirely or maps
it to a non-null, type-correct value: a float for numeric fields, a
non-empty string for text fields — never a `None` or empty-string
placeholder. -/
theorem c1_absence_invariant (text : List Char) (k : String) (v : PyVal)
    (hk : k ∈ PKeys) (hv : lookupKey (extractFromText text) k = some v) :
    (k ∈ NUMERIC_KEYS → ∃ q, v = PyVal.vnum q) ∧
    (k ∉ NUMERIC_KEYS → ∃ s, v = PyVal.vstr s ∧ s ≠ []) := by
  rcases (extractFromText_inv text).2 k v hv with rfl | ⟨_, hgv⟩
  · exact absurd hk raw_not_pattern_key
  · exact ⟨fun hn => (hgv.1 hn).imp (fun q hq => hq.1),
      fun hn => (hgv.2 hn).imp (fun s hs => ⟨hs.1, hs.2.1⟩)⟩

theorem c1_witness :
    ("iplv_si" ∈ NUMERIC_KEYS → ∃ q, PyVal.vnum (mkRat 45 10) = PyVal.vnum q) ∧
    ("iplv_si" ∉ NUMERIC_KEYS → ∃ s, PyVal.vnum (mkRat 45 10) = PyVal.vstr s ∧ s ≠ []) :=
  c1_absence_invariant ("IPLV.SI 4.5".toList) "iplv_si" (PyVal.vnum (mkRat 45 10))
    (by decide) (by decide)

/-- Claim C2 (numeric coercion): on the captured text `"1,234.5 kW"` the
coercion strips whitespace, removes the thousands-separator comma, finds the
first `-?\d+(\.\d+)?` substring (`"1234.5"`) and parses it, yielding the
float `1234.5`. -/
theorem c2_numeric_coercion :
    to_float (some ("1,234.5 kW".toList)) = some (1234.5 : ℚ) := by
  have h : to_float (some ("1,234.5 kW".toList)) = some (mkRat 12345 10) := by decide
  rw [h]
  norm_num [Rat.mkRat_eq_div]

/-- Claim C3 (malformed numeric capture): for every numeric field and every
document text, the stored value is never the `None` placeholder — whenever a
numeric pattern matches, the selected capture group is a digit string, so
`_to_float` always succeeds; otherwise the key is absent.  (The extraction
function is total, so no exception is raised; the hypothetical
match-without-digits case of the claim cannot occur for the table's
patterns.) -/
theorem c3_no_null_numeric (text : List Char) (k : String) (hk : k ∈ NUMERIC_KEYS) :
    lookupKey (extractFromText text) k ≠ some PyVal.vnone := by
  intro hv
  rcases (extractFromText_inv text).2 k _ hv with hh | ⟨_, hgv⟩
  · rw [hh] at hk
    exact absurd hk (by decide)
  · obtain ⟨q, hq, _⟩ := hgv.1 hk
    exact PyVal.noConfusion hq

theorem c3_witness :
    lookupKey (extractFromText ("NPLV.SI 7".toList)) "nplv_si" ≠ some PyVal.vnone :=
  c3_no_null_numeric ("NPLV.SI 7".toList) "nplv_si" (by decide)

/-- Claim C4 (selection rule): for every pattern of the table and every
document text, `_grab` (one case-insensitive search over the whole text,
first match in document order, then the code's scan of groups
`1 .. m.lastindex`) returns exactly what the spec's rule prescribes: the
whitespace-trimmed text of the first capture group, scanning all the match's
groups in index order, that participated and is non-blank after trimming;
and `None` (field not found) when no such group exists. -/
theorem c4_selection_rule : ∀ (k : String) (pat : Re), (k, pat) ∈ LABEL_PATTERNS →
    ∀ text : List Char, grab text pat = grabSpec text pat := by
  intro k pat hkp text
  fin_cases hkp
  all_goals first
    | exact grab_eq_spec_maxamps text
    | (apply grab_eq_spec_numTwo <;> rfl)
    | (apply grab_eq_spec_single <;> rfl)

theorem c4_witness :
    grab ("Range X".toList) patRange = grabSpec ("Range X".toList) patRange :=
  c4_selection_rule "range" patRange (List.mem_cons_self _ _) ("Range X".toList)

/-- The page-collection loop keeps, in page order, exactly the page texts
that are non-blank after stripping. -/
theorem collectParts_eq_filter : ∀ pages : List (Option (List Char)),
    collectParts pages
      = (pages.map (fun p => p.getD [])).filter (fun t => pyStrip t ≠ []) := by
  intro pages
  induction pages with
  | nil => rfl
  | cons p ps ih =>
    rw [List.map_cons, List.filter_cons]
    by_cases h : pyStrip (p.getD []) = []
    · simp [collectParts, h, ih]
    · simp [collectParts, h, ih]

/-- Claim C5 (page join): for every ordered sequence of pages, the joined
document text is the concatenation, in page order, of exactly those pages'
extracted texts that are non-empty after trimming, separated by single
newlines (a page yielding no text contributes nothing, not even an empty
line) — and in particular a 3-page document whose middle page is blank after
trimming joins to `page1 ++ "\n" ++ page3`. -/
theorem c5_page_join (pages : List (Option (List Char))) (p1 p2 p3 : List Char)
    (h1 : pyStrip p1 ≠ []) (h2 : pyStrip p2 = []) (h3 : pyStrip p3 ≠ []) :
    joinPages pages
        = List.intercalate ['\n']
            ((pages.map (fun p => p.getD [])).filter (fun t => pyStrip t ≠ [])) ∧
    joinPages [some p1, some p2, some p3] = p1 ++ '\n' :: p3 := by
  constructor
  · rw [joinPages, collectParts_eq_filter]
  · have hc : collectParts [some p1, some p2, some p3] = [p1, p3] := by
      simp [collectParts, h1, h2, h3]
    rw [joinPages, hc]
    simp [List.intercalate, List.intersperse]

theorem c5_witness :
    (joinPages [some ['a'], some [' '], some ['b']]
        = List.intercalate ['\n']
            ((([some ['a'], some [' '], some ['b']]).map (fun p => p.getD [])).filter
              (fun t => pyStrip t ≠ []))) ∧
    joinPages [some ['a'], some [' '], some ['b']] = ['a'] ++ '\n' :: ['b'] :=
  c5_page_join [some ['a'], some [' '], some ['b']] ['a'] [' '] ['b']
    (by decide) (by decide) (by decide)

/-- Claim C6 (model truncation): after the pattern pass, a `model` value longer
than 60 characters is replaced by its first 60 characters stripped; a value
of at most 60 characters is unchanged; and every other key is left exactly as
the pattern pass produced it. -/
theorem c6_model_truncation (text s : List Char)
    (hs : lookupKey (applyPatterns text) "model" = some (PyVal.vstr s)) :
    ((60 < s.length →
        lookupKey (extractFromText text) "model" = some (PyVal.vstr (pyStrip (s.take 60)))) ∧
      (s.length ≤ 60 →
        lookupKey (extractFromText text) "model" = some (PyVal.vstr s))) ∧
    ∀ k, k ≠ "model" →
      lookupKey (extractFromText text) k = lookupKey (applyPatterns text) k := by
  have hfix := fixModel_model_eq hs
  refine ⟨⟨?_, ?_⟩, ?_⟩
  · intro hlen
    have hne : s ≠ [] := by
      intro hh
      rw [hh] at hlen
      simp at hlen
    unfold extractFromText
    rw [hfix, if_pos ⟨hne, hlen⟩, lookupKey_setKey_self]
  · intro hlen
    have hcond : ¬(s ≠ [] ∧ 60 < s.length) := by
      intro hh
      omega
    unfold extractFromText
    rw [hfix, if_neg hcond]
    exact hs
  · intro k hk
    unfold extractFromText
    exact fixModel_lookup_ne _ _ hk

theorem c6_witness :
    ((60 < ("AB".toList).length →
        lookupKey (extractFromText ("Model AB\n".toList)) "model"
          = some (PyVal.vstr (pyStrip (("AB".toList).take 60)))) ∧
      (("AB".toList).length ≤ 60 →
        lookupKey (extractFromText ("Model AB\n".toList)) "model"
          = some (PyVal.vstr ("AB".toList)))) ∧
    ∀ k, k ≠ "model" →
      lookupKey (extractFromText ("Model AB\n".toList)) k
        = lookupKey (applyPatterns ("Model AB\n".toList)) k :=
  c6_model_truncation ("Model AB\n".toList) ("AB".toList) (by decide)

/-- Claim C7 (DocumentUnreadable): if the document-open collaborator fails on
the input bytes, `extract_specs_from_pdf` propagates that error unchanged and
returns no partially-filled result. -/
theorem c7_unreadable_propagates
    (openPdf : List UInt8 → Except DocError (List (Option (List Char))))
    (file : List UInt8) (e : DocError) (h : openPdf file = .error e) :
    extract_specs_from_pdf openPdf file = .error e := by
  unfold extract_specs_from_pdf
  rw [h]

theorem c7_witness :
    extract_specs_from_pdf (fun _ => .error (.documentUnreadable ("bad pdf".toList))) []
      = .error (.documentUnreadable ("bad pdf".toList)) :=
  c7_unreadable_propagates (fun _ => .error (.documentUnreadable ("bad pdf".toList))) []
    (.documentUnreadable ("bad pdf".toList)) rfl

/-- Claim C8 (determinism, side-effect freedom): with the page-text
collaborator modelled as a function of the bytes, extraction is a pure
function — on byte-identical inputs the two runs return identical Extraction
Results. -/
theorem c8_deterministic
    (openPdf : List UInt8 → Except DocError (List (Option (List Char))))
    (f1 f2 : List UInt8) (h : f1 = f2) :
    extract_specs_from_pdf openPdf f1 = extract_specs_from_pdf openPdf f2 := by
  rw [h]

theorem c8_witness :
    extract_specs_from_pdf (fun _ => .ok [some ['h', 'i']]) [0]
      = extract_specs_from_pdf (fun _ => .ok [some ['h', 'i']]) [0] :=
  c8_deterministic (fun _ => .ok [some ['h', 'i']]) [0] [0] rfl

/-- Claim C9 (raw text retention): whenever the document opens successfully,
the result contains the full joined document text under the reserved key
`"_raw_text"`, regardless of how many field patterns matched. -/
theorem c9_raw_text
    (openPdf : List UInt8 → Except DocError (List (Option (List Char))))
    (file : List UInt8) (pages : List (Option (List Char)))
    (h : openPdf file = .ok pages) :
    ∃ out, extract_specs_from_pdf openPdf file = .ok out ∧
      lookupKey out "_raw_text" = some (PyVal.vstr (joinPages pages)) := by
  refine ⟨extractFromText (joinPages pages), ?_, (extractFromText_inv _).1⟩
  unfold extract_specs_from_pdf
  rw [h]

theorem c9_witness :
    ∃ out, extract_specs_from_pdf (fun _ => .ok [some ['h']]) [] = .ok out ∧
      lookupKey out "_raw_text" = some (PyVal.vstr (joinPages [some ['h']])) :=
  c9_raw_text (fun _ => .ok [some ['h']]) [] [some ['h']] rfl

/-- Claim C10 (non-negativity): every numeric value present in an Extraction
Result is non-negative — each numeric pattern captures an unsigned digit
sequence, so although `_to_float`'s regex accepts a leading minus, no
negative value is ever stored. -/
theorem c10_numeric_nonneg (text : List Char) (k : String) (q : ℚ)
    (hv : lookupKey (extractFromText text) k = some (PyVal.vnum q)) : 0 ≤ q := by
  rcases (extractFromText_inv text).2 k _ hv with hh | ⟨_, hgv⟩
  · rw [hh, (extractFromText_inv text).1] at hv
    simp at hv
  · by_cases hn : k ∈ NUMERIC_KEYS
    · obtain ⟨q', hq', h0⟩ := hgv.1 hn
      injection hq' with hqq
      rw [hqq]
      exact h0
    · obtain ⟨s, hs, _⟩ := hgv.2 hn
      exact PyVal.noConfusion hs

theorem c10_witness : (0 : ℚ) ≤ mkRat 45 10 :=
  c10_numeric_nonneg ("IPLV.SI 4.5".toList) "iplv_si" (mkRat 45 10) (by decide)

end ChillerReporting
